import Mathlib

/-!
Verification development for `molden_to_abins.py`, a converter from the
Molden quantum-chemistry text format to an Abins-compatible JSON record.

The Python source is shallowly embedded here:

* text lines are `String`s; Python `str.strip` / `str.split()` are modelled
  by `pyStrip` / `pySplit` over character lists;
* Python floats are modelled as exact rationals (`ℚ`): `pyFloat` parses the
  decimal literals accepted by `float(...)` (sign, digits, optional fraction,
  optional exponent) to their exact rational value;
* Python dicts are modelled as insertion-ordered association lists with
  overwrite-on-reassignment (`pyDictInsert` / `pyDictGet`);
* exceptions (`ValueError`, `KeyError`, `AttributeError`, `TypeError`) are
  modelled with `Except PyErr`;
* the external atomic-mass table (`ase.data.atomic_masses`) and the external
  Bohr-radius-in-angstrom constant (`ase.units.Bohr`) are parameters
  (`mass : ℤ → ℚ`, `bohrC : ℚ`) of the functions that consume them, as the
  spec declares them out-of-scope external collaborators.
-/

namespace MoldenToAbins

/-- Python exception kinds raised by the paths of `molden_to_abins.py`. -/
inductive PyErr where
  | valueError
  | keyError
  | attributeError
  | typeError
deriving DecidableEq, Repr

/-- Decidable equality of `Except` results, for evaluating the embedded
program on concrete inputs. -/
instance {ε α : Type} [DecidableEq ε] [DecidableEq α] : DecidableEq (Except ε α) :=
  fun a b =>
    match a, b with
    | .error e, .error f =>
      if h : e = f then .isTrue (by rw [h])
      else .isFalse (fun hc => h (by cases hc; rfl))
    | .error _, .ok _ => .isFalse (fun hc => by cases hc)
    | .ok _, .error _ => .isFalse (fun hc => by cases hc)
    | .ok x, .ok y =>
      if h : x = y then .isTrue (by rw [h])
      else .isFalse (fun hc => h (by cases hc; rfl))

/-- Python `str.strip()`: drop leading and trailing whitespace. -/
def pyStrip (s : String) : String :=
  String.mk (((s.data.dropWhile Char.isWhitespace).reverse.dropWhile
    Char.isWhitespace).reverse)

/-- Helper for `pySplit`: accumulate the current word (reversed) while
scanning the remaining characters. -/
def splitWsGo : List Char → List Char → List String
  | [], cur => if cur.isEmpty then [] else [String.mk cur.reverse]
  | c :: cs, cur =>
    if c.isWhitespace then
      if cur.isEmpty then splitWsGo cs []
      else String.mk cur.reverse :: splitWsGo cs []
    else splitWsGo cs (c :: cur)

/-- Python `str.split()` with no argument: split on runs of whitespace,
discarding empty pieces. -/
def pySplit (s : String) : List String := splitWsGo s.data []

/-- Numeric value of a run of decimal digit characters. -/
def digitsVal (ds : List Char) : ℕ :=
  ds.foldl (fun n c => 10 * n + (c.toNat - 48)) 0

/-- Python `int(...)` on a token: optional sign followed by one or more
decimal digits. -/
def pyIntChars : List Char → Option ℤ
  | '-' :: ds =>
    if !ds.isEmpty && ds.all Char.isDigit then some (-(digitsVal ds : ℤ)) else none
  | '+' :: ds =>
    if !ds.isEmpty && ds.all Char.isDigit then some (digitsVal ds : ℤ) else none
  | ds =>
    if !ds.isEmpty && ds.all Char.isDigit then some (digitsVal ds : ℤ) else none

/-- Python `int(...)` on a string token. -/
def pyInt (s : String) : Option ℤ := pyIntChars s.data

/-- Mantissa of a float literal: `digits`, `digits.digits`, `digits.` or
`.digits`, with at least one digit overall. -/
def pyFloatMantissa (cs : List Char) : Option ℚ :=
  let ip := cs.takeWhile Char.isDigit
  match cs.dropWhile Char.isDigit with
  | [] => if ip.isEmpty then none else some (digitsVal ip : ℚ)
  | '.' :: fp =>
    if fp.all Char.isDigit && !(ip.isEmpty && fp.isEmpty) then
      some ((digitsVal ip : ℚ) + (digitsVal fp : ℚ) / (10 : ℚ) ^ fp.length)
    else none
  | _ => none

/-- Split a character list at the first `e`/`E`, returning the part before it
and (when present) the part after it. -/
def splitAtExp : List Char → List Char × Option (List Char)
  | [] => ([], none)
  | c :: cs =>
    if c = 'e' || c = 'E' then ([], some cs)
    else
      let r := splitAtExp cs
      (c :: r.1, r.2)

/-- Python `float(...)` on a stripped decimal token, as an exact rational.
(The exotic literals `inf`/`nan`/underscores are outside the inputs this
development exercises and are rejected here.) -/
def pyFloat (s : String) : Option ℚ :=
  let signed : ℚ × List Char :=
    match s.data with
    | '-' :: r => (-1, r)
    | '+' :: r => (1, r)
    | r => (1, r)
  let me := splitAtExp signed.2
  match pyFloatMantissa me.1, me.2 with
  | some q, none => some (signed.1 * q)
  | some q, some ec =>
    match pyIntChars ec with
    | some z => some (signed.1 * q * (10 : ℚ) ^ z)
    | none => none
  | none, _ => none

/-! ## Python dicts as insertion-ordered association lists -/

/-- Python dict assignment `d[k] = v`: overwrite in place when the key is
present (keeping its position), otherwise append. -/
def pyDictInsert {κ ν : Type} [DecidableEq κ] :
    List (κ × ν) → κ → ν → List (κ × ν)
  | [], k, v => [(k, v)]
  | (k', v') :: rest, k, v =>
    if k' = k then (k, v) :: rest else (k', v') :: pyDictInsert rest k v

/-- Python dict lookup `d[k]` / `k in d`: first (and only) binding of `k`. -/
def pyDictGet {κ ν : Type} [DecidableEq κ] : List (κ × ν) → κ → Option ν
  | [], _ => none
  | (k', v) :: rest, k => if k' = k then some v else pyDictGet rest k

/-- Repeated dict assignment of a list of key/value pairs, in order. -/
def commitAll {κ ν : Type} [DecidableEq κ] :
    List (κ × ν) → List (κ × ν) → List (κ × ν)
  | d, [] => d
  | d, (k, v) :: rest => commitAll (pyDictInsert d k v) rest

/-! ## `_read_blocks` -/

/-- One character of the `re` class `[\w\-]` (Python `\w` restricted to the
ASCII word characters that appear in Molden section names). -/
def isWordChar (c : Char) : Bool := c.isAlphanum || c = '_'

/-- `re.match(r"\[[\w\-]+\]\s*(AU|Angs)?", line)`: since `re.match` anchors
only at the start and the trailing `\s*(AU|Angs)?` can match the empty
string, a line matches iff it starts with `[`, then one or more
word-or-hyphen characters, then `]`. -/
def headerMatch (s : String) : Bool :=
  match s.data with
  | '[' :: rest =>
    !(rest.takeWhile (fun c => isWordChar c || c = '-')).isEmpty &&
      (match rest.dropWhile (fun c => isWordChar c || c = '-') with
       | ']' :: _ => true
       | _ => false)
  | _ => false

/-- Python truthiness of `current_header : Optional[str]`: `None` and the
empty string are falsy. -/
def pyTruthyStr : Option String → Bool
  | none => false
  | some s => !s.data.isEmpty

/-- The raw block set: a Python dict from header line to content lines.  The
key and value types are `Option`s because `_read_blocks` initialises
`current_header` and `current_block` to `None` and commits them as-is at end
of stream. -/
abbrev RawDict := List (Option String × Option (List String))

/-- The `for line in map(str.strip, fd)` loop of `_read_blocks`: strip each
line; on a header match commit the active block (if the header is truthy)
and start a new accumulator; otherwise append to the current block, which
raises `AttributeError` when no block is active (`None.append`). -/
def readBlocksLoop : List String → RawDict → Option String → Option (List String) →
    Except PyErr (RawDict × Option String × Option (List String))
  | [], raw, h, b => .ok (raw, h, b)
  | l :: rest, raw, h, b =>
    let t := pyStrip l
    if headerMatch t then
      readBlocksLoop rest (if pyTruthyStr h then pyDictInsert raw h b else raw)
        (some t) (some [])
    else
      match b with
      | some bl => readBlocksLoop rest raw h (some (bl ++ [t]))
      | none => .error .attributeError

/-- `_read_blocks`: run the loop, then unconditionally store the last open
section (`raw_data[current_header] = current_block`). -/
def readBlocks (lines : List String) : Except PyErr RawDict :=
  match readBlocksLoop lines [] none none with
  | .error e => .error e
  | .ok (raw, h, b) => .ok (pyDictInsert raw h b)

/-! ## `parse_atoms_data` -/

/-- The `AtomData` TypedDict of the source. -/
structure AtomData where
  coord : List ℚ
  mass : ℚ
  sort : ℤ
  symbol : String
deriving DecidableEq, Repr

/-- Evaluate `f` over a list left-to-right, propagating the first raised
exception (Python's eager `map` inside `list(...)`/comprehensions). -/
def mapExcept {α β : Type} (f : α → Except PyErr β) : List α → Except PyErr (List β)
  | [] => .ok []
  | a :: as =>
    match f a with
    | .error e => .error e
    | .ok b =>
      match mapExcept f as with
      | .error e => .error e
      | .ok bs => .ok (b :: bs)

/-- The parsed fields of one atom line:
`(symbol, index, proton_number, x, y, z)`. -/
abbrev AtomTuple := String × ℤ × ℤ × ℚ × ℚ × ℚ

/-- Named instance so that instance search on nested `List AtomTuple` types
stays within its default size limit. -/
instance : DecidableEq AtomTuple := inferInstance

/-- `_parse_atom_line`: split on whitespace into exactly six fields
(`ValueError` otherwise, from tuple unpacking), converting with `int` and
`float` (`ValueError` on failure). -/
def parseAtomLine (line : String) : Except PyErr AtomTuple :=
  match pySplit line with
  | [symbol, istr, pstr, xs, ys, zs] =>
    match pyInt istr, pyInt pstr, pyFloat xs, pyFloat ys, pyFloat zs with
    | some i, some p, some x, some y, some z => .ok (symbol, i, p, x, y, z)
    | _, _, _, _, _ => .error .valueError
  | _ => .error .valueError

/-- The dict key `f"atom_{index - 1}"` of one parsed atom line. -/
def atomKey (q : AtomTuple) : String := "atom_" ++ toString (q.2.1 - 1)

/-- The `AtomData` record built for one parsed atom line
(`coord`, `mass := atomic_masses[proton_number]`, `sort := index - 1`,
`symbol`). -/
def atomRec (mass : ℤ → ℚ) (q : AtomTuple) : AtomData :=
  ⟨[q.2.2.2.1, q.2.2.2.2.1, q.2.2.2.2.2], mass q.2.2.1, q.2.1 - 1, q.1⟩

/-- The dict comprehension of `parse_atoms_data`: insert one entry per parsed
line, in file order (a repeated key is overwritten by the later line). -/
def buildAtomsDict (mass : ℤ → ℚ) (ps : List AtomTuple) : List (String × AtomData) :=
  commitAll [] (ps.map (fun q => (atomKey q, atomRec mass q)))

/-- `_bohr_to_ang`: scale every component by the external constant
`Bohr` (the Bohr radius in angstrom), here the parameter `bohrC`. -/
def bohrToAng (bohrC : ℚ) (coord : List ℚ) : List ℚ :=
  coord.map (fun x => x * bohrC)

/-- The body of the in-place rescaling loop of `parse_atoms_data`
(`atom_data["coord"] = _bohr_to_ang(atom_data["coord"])`). -/
def scaleRecord (bohrC : ℚ) (r : AtomData) : AtomData :=
  { r with coord := bohrToAng bohrC r.coord }

/-- `parse_atoms_data`: choose the `"[Atoms] AU"` section if present, else
`"[Atoms] Angs"` (`KeyError` if neither); parse every line; then, for the
Bohr-unit variant only, rescale every record's coordinates in place. -/
def parseAtomsData (mass : ℤ → ℚ) (bohrC : ℚ) (raw : RawDict) :
    Except PyErr (List (String × AtomData)) :=
  match
    (match pyDictGet raw (some "[Atoms] AU") with
     | some v => Except.ok (v, true)
     | none =>
       match pyDictGet raw (some "[Atoms] Angs") with
       | some v => Except.ok (v, false)
       | none => Except.error PyErr.keyError)
  with
  | .error e => .error e
  | .ok (v, bohrUnits) =>
    match v with
    | none => .error .typeError
    | some rawAtomLines =>
      match mapExcept parseAtomLine rawAtomLines with
      | .error e => .error e
      | .ok ps =>
        let d := buildAtomsDict mass ps
        if bohrUnits then
          .ok (d.map (fun p => (p.1, scaleRecord bohrC p.2)))
        else .ok d

/-! ## `_parse_displacements` -/

/-- Whether `pat` starts the list `s`. -/
def startsWithChars : List Char → List Char → Bool
  | [], _ => true
  | _ :: _, [] => false
  | p :: ps, c :: cs => p = c && startsWithChars ps cs

/-- Whether `pat` occurs as a contiguous sublist of `s`. -/
def containsChars (pat : List Char) : List Char → Bool
  | [] => startsWithChars pat []
  | c :: cs => startsWithChars pat (c :: cs) || containsChars pat cs

/-- Python `"vibration" in line`. -/
def hasVibration (s : String) : Bool := containsChars "vibration".data s.data

/-- The grouping loop of `_parse_displacements`: a line containing
`"vibration"` commits the current (non-empty) mode group; any other line
must split into three floats, appended as `[x, 0, y, 0, z, 0]`. -/
def dispLoop : List String → List (List (List ℚ)) → List (List ℚ) →
    Except PyErr (List (List (List ℚ)) × List (List ℚ))
  | [], modes, cur => .ok (modes, cur)
  | l :: rest, modes, cur =>
    if hasVibration l then
      if !cur.isEmpty then dispLoop rest (modes ++ [cur]) []
      else dispLoop rest modes cur
    else
      match pySplit l with
      | [xs, ys, zs] =>
        match pyFloat xs, pyFloat ys, pyFloat zs with
        | some x, some y, some z => dispLoop rest modes (cur ++ [[x, 0, y, 0, z, 0]])
        | _, _, _ => .error .valueError
      | _ => .error .valueError

/-- The mode groups of a normal-coordinates section: run the loop, then
append the final open group (`modes_array.append(current_mode_data)`). -/
def dispGroups (lines : List String) : Except PyErr (List (List (List ℚ))) :=
  match dispLoop lines [] [] with
  | .error e => .error e
  | .ok (modes, cur) => .ok (modes ++ [cur])

/-- All innermost entry lengths of a 3-level nested list. -/
def entryLens (G : List (List (List ℚ))) : List ℕ :=
  G.foldr (fun g acc => g.map List.length ++ acc) []

/-- Whether `np.asarray(G, dtype=float)` succeeds on a 3-level nested list:
all mode groups must have equal length and all innermost entries must have
equal length (modern numpy raises `ValueError` on an inhomogeneous shape). -/
def rect3 (G : List (List (List ℚ))) : Bool :=
  (match G with
   | [] => true
   | g₀ :: _ => G.all (fun g => g.length == g₀.length)) &&
  (match entryLens G with
   | [] => true
   | n₀ :: ns => ns.all (fun n => n == n₀))

/-- Transpose of a rectangular list-of-rows (`np.swapaxes(a, 0, 1)` on the
two leading axes): column `j` of the result collects entry `j` of every
row. -/
def transposeRect {α : Type} (d : α) (m : List (List α)) : List (List α) :=
  match m with
  | [] => []
  | r₀ :: _ => (List.range r₀.length).map (fun j => m.map (fun row => row.getD j d))

/-- `_parse_displacements`: group the `"[FR-NORM-COORD]"` section
(`KeyError` if absent), convert to an array (`ValueError` when ragged),
insert the length-1 k-point axis (`np.expand_dims(a, 0)`), and swap the
mode and atom axes (`a.swapaxes(1, 2)`). -/
def parseDisplacements (raw : RawDict) :
    Except PyErr (List (List (List (List ℚ)))) :=
  match pyDictGet raw (some "[FR-NORM-COORD]") with
  | none => .error .keyError
  | some none => .error .typeError
  | some (some lines) =>
    match dispGroups lines with
    | .error e => .error e
    | .ok G => if rect3 G then .ok [transposeRect [] G] else .error .valueError

/-! ## `parse_k_points_data` and the top-level pipeline -/

/-- The `KPointsData` TypedDict of the source. -/
structure KPointsData where
  frequencies : List (List ℚ)
  atomic_displacements : List (List (List (List ℚ)))
  weights : List ℚ
  k_vectors : List (List ℚ)
  unit_cell : List (List ℚ)
deriving DecidableEq, Repr

/-- `float(line)` applied to one line of the `"[FREQ]"` section. -/
def parseFreqLine (l : String) : Except PyErr ℚ :=
  match pyFloat l with
  | some q => .ok q
  | none => .error .valueError

/-- `parse_k_points_data`: parse the frequency list
(`[list(map(float, raw_data["[FREQ]"]))]`, `KeyError` if the section is
absent), then the displacements, and assemble the record with the fixed
single-k-point placeholders. -/
def parseKPointsData (raw : RawDict) : Except PyErr KPointsData :=
  match pyDictGet raw (some "[FREQ]") with
  | none => .error .keyError
  | some none => .error .typeError
  | some (some freqLines) =>
    match mapExcept parseFreqLine freqLines with
    | .error e => .error e
    | .ok fs =>
      match parseDisplacements raw with
      | .error e => .error e
      | .ok disp =>
        .ok { k_vectors := [[0, 0, 0]],
              unit_cell := [[0, 0, 0], [0, 0, 0], [0, 0, 0]],
              weights := [1],
              frequencies := [fs],
              atomic_displacements := disp }

/-- `_check_first_line`: read the first line and require it to strip to
exactly `"[Molden Format]"`, raising `ValueError` otherwise (at end of
stream `readline()` returns `""`, which also fails the check). -/
def checkFirstLine (lines : List String) : Except PyErr (List String) :=
  match lines with
  | [] => .error .valueError
  | l :: rest =>
    if pyStrip l = "[Molden Format]" then .ok rest else .error .valueError

/-- The `output_data` record of `main` (its two literal tag fields
included). -/
structure OutputData where
  k_points_data : KPointsData
  atoms_data : List (String × AtomData)
  abins_class : String
  mantid_version : String
deriving DecidableEq, Repr

/-- The rest of `main` after the header check: read the remaining lines into
blocks, then extract geometry and modes (in the source's order: atoms
first). -/
def pipelineAfterHeader (mass : ℤ → ℚ) (bohrC : ℚ) (rest : List String) :
    Except PyErr OutputData :=
  match readBlocks rest with
  | .error e => .error e
  | .ok raw =>
    match parseAtomsData mass bohrC raw with
    | .error e => .error e
    | .ok atoms =>
      match parseKPointsData raw with
      | .error e => .error e
      | .ok kp => .ok ⟨kp, atoms, "AbinsData", "6.9"⟩

/-- The conversion pipeline of `main` on an input line stream: check the
first line, then run the block reader and both extractors. -/
def convert (mass : ℤ → ℚ) (bohrC : ℚ) (lines : List String) :
    Except PyErr OutputData :=
  match checkFirstLine lines with
  | .error e => .error e
  | .ok rest => pipelineAfterHeader mass bohrC rest

/-! ## Dictionary lemmas -/

theorem pyDictGet_insert_self {κ ν : Type} [DecidableEq κ]
    (d : List (κ × ν)) (k : κ) (v : ν) :
    pyDictGet (pyDictInsert d k v) k = some v := by
  induction d with
  | nil => simp [pyDictInsert, pyDictGet]
  | cons p rest ih =>
    by_cases h : p.1 = k
    · simp [pyDictInsert, pyDictGet, h]
    · simpa [pyDictInsert, pyDictGet, h] using ih

theorem pyDictGet_insert_ne {κ ν : Type} [DecidableEq κ]
    (d : List (κ × ν)) (k k' : κ) (v : ν) (hk : k' ≠ k) :
    pyDictGet (pyDictInsert d k v) k' = pyDictGet d k' := by
  induction d with
  | nil => simp [pyDictInsert, pyDictGet, Ne.symm hk]
  | cons p rest ih =>
    by_cases h : p.1 = k
    · subst h
      simp [pyDictInsert, pyDictGet, Ne.symm hk]
    · by_cases h' : p.1 = k'
      · simp [pyDictInsert, pyDictGet, h, h', hk]
      · simpa [pyDictInsert, pyDictGet, h, h'] using ih

theorem pyDictInsert_eq_append {κ ν : Type} [DecidableEq κ]
    (d : List (κ × ν)) (k : κ) (v : ν) (h : pyDictGet d k = none) :
    pyDictInsert d k v = d ++ [(k, v)] := by
  induction d with
  | nil => simp [pyDictInsert]
  | cons p rest ih =>
    by_cases hk : p.1 = k
    · simp [pyDictGet, hk] at h
    · simp only [pyDictGet, hk, if_false] at h
      simp [pyDictInsert, hk, ih h]

theorem commitAll_eq_append {κ ν : Type} [DecidableEq κ]
    (ps : List (κ × ν)) (d : List (κ × ν))
    (hnd : (ps.map Prod.fst).Nodup)
    (hfresh : ∀ p ∈ ps, pyDictGet d p.1 = none) :
    commitAll d ps = d ++ ps := by
  induction ps generalizing d with
  | nil => simp [commitAll]
  | cons p rest ih =>
    obtain ⟨k, v⟩ := p
    simp only [List.map_cons, List.nodup_cons, List.mem_map] at hnd
    have hfk : pyDictGet d k = none := hfresh (k, v) (List.mem_cons_self _ _)
    have step : commitAll d ((k, v) :: rest) = commitAll (d ++ [(k, v)]) rest := by
      simp [commitAll, pyDictInsert_eq_append d k v hfk]
    rw [step, ih (d ++ [(k, v)])]
    · simp
    · exact hnd.2
    · intro q hq
      have hqk : q.1 ≠ k := by
        intro he
        exact hnd.1 ⟨q, hq, he⟩
      have h1 : pyDictGet (pyDictInsert d k v) q.1 = pyDictGet d q.1 :=
        pyDictGet_insert_ne d k q.1 v hqk
      rw [pyDictInsert_eq_append d k v hfk] at h1
      rw [h1]
      exact hfresh q (List.mem_cons_of_mem _ hq)

theorem pyDictMapValues_insert {κ ν : Type} [DecidableEq κ]
    (f : ν → ν) (d : List (κ × ν)) (k : κ) (v : ν) :
    (pyDictInsert d k v).map (fun p => (p.1, f p.2)) =
      pyDictInsert (d.map (fun p => (p.1, f p.2))) k (f v) := by
  induction d with
  | nil => simp [pyDictInsert]
  | cons p rest ih =>
    by_cases h : p.1 = k
    · simp [pyDictInsert, h]
    · simp [pyDictInsert, h, ih]

theorem commitAll_map_values {κ ν : Type} [DecidableEq κ]
    (f : ν → ν) (ps : List (κ × ν)) (d : List (κ × ν)) :
    (commitAll d ps).map (fun p => (p.1, f p.2)) =
      commitAll (d.map (fun p => (p.1, f p.2))) (ps.map (fun p => (p.1, f p.2))) := by
  induction ps generalizing d with
  | nil => simp [commitAll]
  | cons p rest ih =>
    obtain ⟨k, v⟩ := p
    simp only [commitAll, List.map_cons]
    rw [ih, pyDictMapValues_insert]

/-! ## `_read_blocks` lemmas -/

theorem headerMatch_truthy (t : String) (h : headerMatch t = true) :
    pyTruthyStr (some t) = true := by
  unfold headerMatch at h
  unfold pyTruthyStr
  cases hd : t.data with
  | nil => rw [hd] at h; simp at h
  | cons c cs => simp [hd]

theorem readBlocksLoop_append (l₁ l₂ : List String) (raw : RawDict)
    (h : Option String) (b : Option (List String)) :
    readBlocksLoop (l₁ ++ l₂) raw h b =
      match readBlocksLoop l₁ raw h b with
      | .error e => .error e
      | .ok (r, h', b') => readBlocksLoop l₂ r h' b' := by
  induction l₁ generalizing raw h b with
  | nil => simp [readBlocksLoop]
  | cons l rest ih =>
    by_cases hh : headerMatch (pyStrip l) = true
    · simp only [List.cons_append, readBlocksLoop, hh, if_true]
      exact ih _ _ _
    · simp only [List.cons_append, readBlocksLoop, hh, Bool.false_eq_true, if_false]
      cases b with
      | none => rfl
      | some bl => exact ih _ _ _

theorem readBlocksLoop_content (c : List String) (raw : RawDict)
    (h : Option String) (bl : List String)
    (hc : ∀ l ∈ c, headerMatch (pyStrip l) = false) :
    readBlocksLoop c raw h (some bl) = .ok (raw, h, some (bl ++ c.map pyStrip)) := by
  induction c generalizing bl with
  | nil => simp [readBlocksLoop]
  | cons l rest ih =>
    have hl : headerMatch (pyStrip l) = false := hc l (List.mem_cons_self _ _)
    simp only [readBlocksLoop, hl, Bool.false_eq_true, if_false]
    rw [ih (bl ++ [pyStrip l]) (fun x hx => hc x (List.mem_cons_of_mem _ hx))]
    simp

/-- A structured input to the Block Reader: a list of sections, each a
header line followed by its content lines.  Any line sequence whose first
line is a header decomposes uniquely this way. -/
def flattenSecs : List (String × List String) → List String
  | [] => []
  | p :: rest => p.1 :: (p.2 ++ flattenSecs rest)

/-- The committed dict entry of one section: the stripped header keys the
stripped content lines. -/
def trimSec (p : String × List String) : Option String × Option (List String) :=
  (some (pyStrip p.1), some (p.2.map pyStrip))

/-- The loop state reached after processing a list of sections from an
active accumulator `(h, bl)`: each section commits the previous accumulator
and leaves its own open. -/
def endState (raw : RawDict) (h : String) (bl : List String) :
    List (String × List String) → RawDict × String × List String
  | [] => (raw, h, bl)
  | p :: rest =>
    endState (pyDictInsert raw (some h) (some bl)) (pyStrip p.1) (p.2.map pyStrip) rest

theorem readBlocksLoop_secs (secs : List (String × List String))
    (raw : RawDict) (h : String) (bl : List String)
    (hht : pyTruthyStr (some h) = true)
    (hh : ∀ p ∈ secs, headerMatch (pyStrip p.1) = true)
    (hc : ∀ p ∈ secs, ∀ l ∈ p.2, headerMatch (pyStrip l) = false) :
    readBlocksLoop (flattenSecs secs) raw (some h) (some bl) =
      .ok ((endState raw h bl secs).1, some (endState raw h bl secs).2.1,
        some (endState raw h bl secs).2.2) := by
  induction secs generalizing raw h bl with
  | nil => simp [flattenSecs, readBlocksLoop, endState]
  | cons p rest ih =>
    have hp : headerMatch (pyStrip p.1) = true := hh p (List.mem_cons_self _ _)
    simp only [flattenSecs, readBlocksLoop, hp, if_true, hht]
    rw [readBlocksLoop_append]
    rw [readBlocksLoop_content p.2 _ _ []
      (fun l hl => hc p (List.mem_cons_self _ _) l hl)]
    simp only [List.nil_append]
    rw [ih _ _ _ (headerMatch_truthy _ hp)
      (fun q hq => hh q (List.mem_cons_of_mem _ hq))
      (fun q hq l hl => hc q (List.mem_cons_of_mem _ hq) l hl)]
    simp [endState]

theorem endState_commit (secs : List (String × List String))
    (raw : RawDict) (h : String) (bl : List String) :
    pyDictInsert (endState raw h bl secs).1 (some (endState raw h bl secs).2.1)
        (some (endState raw h bl secs).2.2) =
      commitAll raw ((some h, some bl) :: secs.map trimSec) := by
  induction secs generalizing raw h bl with
  | nil => simp [endState, commitAll]
  | cons p rest ih =>
    simp only [endState, List.map_cons]
    rw [ih]
    simp [commitAll, trimSec]

/-! ## Claim C3 — content lines before the first header -/

/-- Claim C3, counterexample.  The claim says the Block Reader treats a
headerless prefix as a discarded empty prefix block and does not crash; in
fact on the concrete input `["hello", "[FREQ]", "1.0"]` (a content line
before the first header) `_read_blocks` appends to `current_block = None`
and raises `AttributeError`. -/
theorem c3_content_before_header_counterexample :
    readBlocks ["hello", "[FREQ]", "1.0"] = .error .attributeError := rfl

/-- Claim C3, amended.  For every input whose first line does not strip to a
header line, the Block Reader raises `AttributeError` (the `None.append`
crash): the headerless prefix is not discarded and parsing does not
proceed. -/
theorem c3_content_before_header_crashes (l : String) (ls : List String)
    (hl : headerMatch (pyStrip l) = false) :
    readBlocks (l :: ls) = .error .attributeError := by
  simp [readBlocks, readBlocksLoop, hl]

/-- Claim C3, witness for the amended theorem at a concrete input. -/
theorem c3_content_before_header_crashes_witness :
    readBlocks ["stray content", "[Atoms] Angs"] = .error .attributeError :=
  c3_content_before_header_crashes "stray content" ["[Atoms] Angs"] (by decide)

/-! ## Claim C10 — duplicated header lines -/

theorem pyDictGet_commitAll_of_ne {κ ν : Type} [DecidableEq κ]
    (ps : List (κ × ν)) (d : List (κ × ν)) (k : κ)
    (hk : ∀ p ∈ ps, p.1 ≠ k) :
    pyDictGet (commitAll d ps) k = pyDictGet d k := by
  induction ps generalizing d with
  | nil => rfl
  | cons p rest ih =>
    obtain ⟨k', v'⟩ := p
    have hne : k' ≠ k := hk (k', v') (List.mem_cons_self _ _)
    simp only [commitAll]
    rw [ih _ (fun q hq => hk q (List.mem_cons_of_mem _ hq))]
    exact pyDictGet_insert_ne d k' k v' (Ne.symm hne)

/-- Claim C10.  When the same header text occurs more than once in the
stream, the committed result maps that header to the content lines of its
**last** occurrence only, and no error is raised.  The stream is
decomposed around the last occurrence: `ls₁` is any prefix the loop
survives (in particular it may hold earlier occurrences of the same header
with other content — all of it is overwritten); `h` is the repeated header
line; `c` is its content block; `secs` are the remaining sections of the
stream, none of whose headers strips to the same text (so this occurrence
is indeed the last).  Later sections commit under their own keys and leave
the entry intact. -/
theorem c10_duplicate_header_last_wins (ls₁ : List String) (h : String)
    (c : List String) (secs : List (String × List String))
    (st : RawDict × Option String × Option (List String))
    (hst : readBlocksLoop ls₁ [] none none = .ok st)
    (hh : headerMatch (pyStrip h) = true)
    (hc : ∀ l ∈ c, headerMatch (pyStrip l) = false)
    (hsh : ∀ p ∈ secs, headerMatch (pyStrip p.1) = true)
    (hsc : ∀ p ∈ secs, ∀ l ∈ p.2, headerMatch (pyStrip l) = false)
    (hlast : ∀ p ∈ secs, pyStrip p.1 ≠ pyStrip h) :
    ∃ d, readBlocks (ls₁ ++ h :: (c ++ flattenSecs secs)) = .ok d ∧
      pyDictGet d (some (pyStrip h)) = some (some (c.map pyStrip)) := by
  obtain ⟨r, h₀, b₀⟩ := st
  unfold readBlocks
  rw [readBlocksLoop_append, hst]
  simp only [readBlocksLoop, hh, if_true]
  rw [readBlocksLoop_append,
    readBlocksLoop_content c _ _ [] hc]
  simp only [List.nil_append]
  rw [readBlocksLoop_secs secs _ _ _ (headerMatch_truthy _ hh) hsh hsc]
  refine ⟨_, rfl, ?_⟩
  rw [endState_commit]
  have step : commitAll (if pyTruthyStr h₀ then pyDictInsert r h₀ b₀ else r)
      ((some (pyStrip h), some (c.map pyStrip)) :: secs.map trimSec) =
      commitAll (pyDictInsert
        (if pyTruthyStr h₀ then pyDictInsert r h₀ b₀ else r)
        (some (pyStrip h)) (some (c.map pyStrip))) (secs.map trimSec) := rfl
  rw [step, pyDictGet_commitAll_of_ne]
  · exact pyDictGet_insert_self _ _ _
  · intro p hp
    obtain ⟨q, hq, rfl⟩ := List.mem_map.mp hp
    simp only [trimSec, ne_eq, Option.some.injEq]
    exact hlast q hq

/-- Claim C10, witness: in
`["[FREQ]", "1.0", "[FREQ]", "2.0", "[Atoms] Angs", "H 1 1 0.0 0.0 0.0"]`
the header `"[FREQ]"` occurs twice and a further section follows its last
occurrence; the result still maps `"[FREQ]"` to `["2.0"]` only, the lines
of the first occurrence being discarded. -/
theorem c10_duplicate_header_last_wins_witness :
    ∃ d, readBlocks (["[FREQ]", "1.0"] ++ "[FREQ]" ::
        (["2.0"] ++ flattenSecs [("[Atoms] Angs", ["H 1 1 0.0 0.0 0.0"])])) = .ok d ∧
      pyDictGet d (some (pyStrip "[FREQ]")) = some (some (["2.0"].map pyStrip)) :=
  c10_duplicate_header_last_wins ["[FREQ]", "1.0"] "[FREQ]" ["2.0"]
    [("[Atoms] Angs", ["H 1 1 0.0 0.0 0.0"])]
    ([], some "[FREQ]", some ["1.0"]) rfl (by decide) (by decide) (by decide)
    (by decide) (by decide)

/-! ## Claim C4 — block completeness -/

/-- Concatenation of all section contents of a committed block set, in
order. -/
def concatContents (d : RawDict) : List String :=
  d.foldr (fun p acc => p.2.getD [] ++ acc) []

theorem concatContents_trimSecs (secs : List (String × List String))
    (hh : ∀ p ∈ secs, headerMatch (pyStrip p.1) = true)
    (hc : ∀ p ∈ secs, ∀ l ∈ p.2, headerMatch (pyStrip l) = false) :
    concatContents (secs.map trimSec) =
      ((flattenSecs secs).map pyStrip).filter (fun l => !headerMatch l) := by
  induction secs with
  | nil => simp [concatContents, flattenSecs]
  | cons p rest ih =>
    have hp := hh p (List.mem_cons_self _ _)
    have hkeep : (p.2.map pyStrip).filter (fun l => !headerMatch l) = p.2.map pyStrip := by
      apply List.filter_eq_self.mpr
      intro a ha
      obtain ⟨l, hl, rfl⟩ := List.mem_map.mp ha
      simp [hc p (List.mem_cons_self _ _) l hl]
    have ihr := ih (fun q hq => hh q (List.mem_cons_of_mem _ hq))
      (fun q hq l hl => hc q (List.mem_cons_of_mem _ hq) l hl)
    simp only [List.map_cons, flattenSecs, concatContents, List.foldr_cons, trimSec,
      Option.getD_some, List.map_append, List.filter_cons, List.filter_append, hp,
      Bool.not_true, hkeep]
    simp only [concatContents] at ihr
    simp [ihr]

/-- Claim C4.  For a stream made of `N` sections — at least one header before
any content line, all headers distinct — the Block Reader succeeds and the
result is exactly one entry per section, keyed by the section's stripped
header text (unit-tag suffix included, since the key is the whole stripped
line) and carrying its stripped content lines in order; consequently it has
exactly `N` keys, and the concatenation of all section contents equals the
concatenation of all stripped non-header lines of the stream — nothing
dropped or duplicated, the trailing section included. -/
theorem c4_block_completeness (secs : List (String × List String))
    (hne : secs ≠ [])
    (hh : ∀ p ∈ secs, headerMatch (pyStrip p.1) = true)
    (hc : ∀ p ∈ secs, ∀ l ∈ p.2, headerMatch (pyStrip l) = false)
    (hnd : (secs.map (fun p => pyStrip p.1)).Nodup) :
    readBlocks (flattenSecs secs) = .ok (secs.map trimSec) ∧
      (secs.map trimSec).length = secs.length ∧
      concatContents (secs.map trimSec) =
        ((flattenSecs secs).map pyStrip).filter (fun l => !headerMatch l) := by
  refine ⟨?_, by simp, concatContents_trimSecs secs hh hc⟩
  obtain ⟨p₀, rest, rfl⟩ : ∃ p₀ rest, secs = p₀ :: rest := by
    cases secs with
    | nil => exact absurd rfl hne
    | cons p₀ rest => exact ⟨p₀, rest, rfl⟩
  have hp₀ : headerMatch (pyStrip p₀.1) = true := hh p₀ (List.mem_cons_self _ _)
  unfold readBlocks
  simp only [flattenSecs, readBlocksLoop, hp₀, if_true, pyTruthyStr, Bool.false_eq_true,
    if_false]
  rw [readBlocksLoop_append,
    readBlocksLoop_content p₀.2 _ _ [] (fun l hl => hc p₀ (List.mem_cons_self _ _) l hl)]
  simp only [List.nil_append]
  rw [readBlocksLoop_secs rest _ _ _ (headerMatch_truthy _ hp₀)
    (fun q hq => hh q (List.mem_cons_of_mem _ hq))
    (fun q hq l hl => hc q (List.mem_cons_of_mem _ hq) l hl)]
  simp only
  rw [endState_commit]
  have : (some (pyStrip p₀.1), some (p₀.2.map pyStrip)) :: rest.map trimSec =
      (p₀ :: rest).map trimSec := by simp [trimSec]
  rw [this, commitAll_eq_append]
  · simp
  · have : ((p₀ :: rest).map trimSec).map Prod.fst =
        ((p₀ :: rest).map (fun p => pyStrip p.1)).map some := by
      simp [trimSec, Function.comp]
    rw [this]
    exact hnd.map (Option.some_injective _)
  · intro q _
    rfl

/-- Claim C4, witness at a concrete two-section stream. -/
theorem c4_block_completeness_witness :
    readBlocks (flattenSecs [("[Atoms] Angs", ["H 1 1 0.0 0.0 0.0"]), ("[FREQ]", ["1.0"])]) =
        .ok ([("[Atoms] Angs", ["H 1 1 0.0 0.0 0.0"]), ("[FREQ]", ["1.0"])].map trimSec) ∧
      ([("[Atoms] Angs", ["H 1 1 0.0 0.0 0.0"]), ("[FREQ]", ["1.0"])].map trimSec).length =
        [("[Atoms] Angs", ["H 1 1 0.0 0.0 0.0"]), ("[FREQ]", ["1.0"])].length ∧
      concatContents ([("[Atoms] Angs", ["H 1 1 0.0 0.0 0.0"]), ("[FREQ]", ["1.0"])].map trimSec) =
        ((flattenSecs [("[Atoms] Angs", ["H 1 1 0.0 0.0 0.0"]), ("[FREQ]", ["1.0"])]).map
          pyStrip).filter (fun l => !headerMatch l) :=
  c4_block_completeness [("[Atoms] Angs", ["H 1 1 0.0 0.0 0.0"]), ("[FREQ]", ["1.0"])]
    (by decide) (by decide) (by decide) (by decide)

/-! ## Displacement lemmas (claims C1 and C5) -/

/-- The shape every appended eigenvector entry has: three parsed components
interleaved with zero imaginary parts. -/
def goodEntry (e : List ℚ) : Prop := ∃ x y z : ℚ, e = [x, 0, y, 0, z, 0]

theorem dispLoop_shape (lines : List String) (modes m' : List (List (List ℚ)))
    (cur c' : List (List ℚ))
    (hrun : dispLoop lines modes cur = .ok (m', c'))
    (hm : ∀ g ∈ modes, ∀ e ∈ g, goodEntry e)
    (hc : ∀ e ∈ cur, goodEntry e) :
    ∀ g ∈ m' ++ [c'], ∀ e ∈ g, goodEntry e := by
  induction lines generalizing modes cur with
  | nil =>
    simp only [dispLoop, Except.ok.injEq, Prod.mk.injEq] at hrun
    obtain ⟨rfl, rfl⟩ := hrun
    intro g hg
    rcases List.mem_append.mp hg with hg | hg
    · exact hm g hg
    · simp only [List.mem_singleton] at hg
      subst hg
      exact hc
  | cons l rest ih =>
    by_cases hv : hasVibration l = true
    · by_cases hcur : cur.isEmpty = true
      · simp only [dispLoop, hv, if_true, hcur, Bool.not_true, Bool.false_eq_true,
          if_false] at hrun
        exact ih modes cur hrun hm hc
      · simp only [dispLoop, hv, if_true, hcur, Bool.not_false, if_true] at hrun
        refine ih (modes ++ [cur]) [] hrun ?_ (by simp)
        intro g hg
        rcases List.mem_append.mp hg with hg | hg
        · exact hm g hg
        · simp only [List.mem_singleton] at hg
          subst hg
          exact hc
    · simp only [dispLoop, hv, Bool.false_eq_true, if_false] at hrun
      match hsp : pySplit l with
      | [] | [_] | [_, _] | _ :: _ :: _ :: _ :: _ => simp [hsp] at hrun
      | [xs, ys, zs] =>
        match hx : pyFloat xs, hy : pyFloat ys, hz : pyFloat zs with
        | none, _, _ | some _, none, _ | some _, some _, none =>
          simp [hsp, hx, hy, hz] at hrun
        | some x, some y, some z =>
          simp only [hsp, hx, hy, hz] at hrun
          refine ih modes (cur ++ [[x, 0, y, 0, z, 0]]) hrun hm ?_
          intro e he
          rcases List.mem_append.mp he with he | he
          · exact hc e he
          · simp only [List.mem_singleton] at he
            subst he
            exact ⟨x, y, z, rfl⟩

theorem dispGroups_ne_nil (lines : List String) (G : List (List (List ℚ)))
    (hG : dispGroups lines = .ok G) : G ≠ [] := by
  unfold dispGroups at hG
  match hrun : dispLoop lines [] [] with
  | .error e => rw [hrun] at hG; simp at hG
  | .ok (modes, cur) =>
    rw [hrun] at hG
    simp only [Except.ok.injEq] at hG
    subst hG
    simp

theorem dispGroups_shape (lines : List String) (G : List (List (List ℚ)))
    (hG : dispGroups lines = .ok G) : ∀ g ∈ G, ∀ e ∈ g, goodEntry e := by
  unfold dispGroups at hG
  match hrun : dispLoop lines [] [] with
  | .error e => rw [hrun] at hG; simp at hG
  | .ok (modes, cur) =>
    rw [hrun] at hG
    simp only [Except.ok.injEq] at hG
    subst hG
    exact dispLoop_shape lines [] modes [] cur hrun (by simp) (by simp)

theorem entryLens_eq_six (G : List (List (List ℚ)))
    (hg : ∀ g ∈ G, ∀ e ∈ g, goodEntry e) :
    ∀ n ∈ entryLens G, n = 6 := by
  induction G with
  | nil => simp [entryLens]
  | cons g rest ih =>
    intro n hn
    simp only [entryLens, List.foldr_cons, List.mem_append, List.mem_map] at hn
    rcases hn with ⟨e, he, rfl⟩ | hn
    · obtain ⟨x, y, z, rfl⟩ := hg g (List.mem_cons_self _ _) e he
      rfl
    · exact ih (fun q hq => hg q (List.mem_cons_of_mem _ hq)) n hn

theorem rect3_true (G : List (List (List ℚ))) (K : ℕ)
    (hK : ∀ g ∈ G, g.length = K)
    (hg : ∀ g ∈ G, ∀ e ∈ g, goodEntry e) : rect3 G = true := by
  unfold rect3
  rw [Bool.and_eq_true]
  constructor
  · cases G with
    | nil => rfl
    | cons g₀ rest =>
      apply List.all_eq_true.mpr
      intro g hgm
      have h1 := hK g hgm
      have h0 := hK g₀ (List.mem_cons_self _ _)
      simp [h1, h0]
  · cases hel : entryLens G with
    | nil => rfl
    | cons n₀ ns =>
      apply List.all_eq_true.mpr
      intro n hn
      have h6 := entryLens_eq_six G hg
      have hn₀ : n₀ = 6 := h6 n₀ (by rw [hel]; exact List.mem_cons_self _ _)
      have hnn : n = 6 := h6 n (by rw [hel]; exact List.mem_cons_of_mem _ hn)
      simp [hn₀, hnn]

theorem getD_mem_of_lt {α : Type} (l : List α) (j : ℕ) (d : α) (hj : j < l.length) :
    l.getD j d ∈ l := by
  rw [List.getD_eq_getElem?_getD, List.getElem?_eq_getElem hj, Option.getD_some]
  exact List.getElem_mem hj

theorem transposeRect_getD {α : Type} (d : α) (G : List (List α)) (K a m : ℕ)
    (hK : ∀ g ∈ G, g.length = K) (ha : a < K) (hm : m < G.length) :
    ((transposeRect d G).getD a []).getD m d = (G.getD m []).getD a d := by
  cases G with
  | nil => simp at hm
  | cons g₀ rest =>
    have h0 : g₀.length = K := hK g₀ (List.mem_cons_self _ _)
    have hcol :
        ((List.range g₀.length).map
            (fun j => (g₀ :: rest).map (fun row => row.getD j d))).getD a [] =
          (g₀ :: rest).map (fun row => row.getD a d) := by
      rw [List.getD_eq_getElem?_getD, List.getElem?_map, List.getElem?_range
        (by rw [h0]; exact ha)]
      rfl
    have hrow :
        ((g₀ :: rest).map (fun row => row.getD a d)).getD m d =
          ((g₀ :: rest).getD m []).getD a d := by
      rw [List.getD_eq_getElem?_getD, List.getElem?_map,
        List.getElem?_eq_getElem hm,
        List.getD_eq_getElem?_getD (g₀ :: rest) m [],
        List.getElem?_eq_getElem hm]
      rfl
    calc ((transposeRect d (g₀ :: rest)).getD a []).getD m d
        = ((g₀ :: rest).map (fun row => row.getD a d)).getD m d := by
          rw [transposeRect, hcol]
      _ = ((g₀ :: rest).getD m []).getD a d := hrow

theorem transposeRect_rows {α : Type} (d : α) (G : List (List α)) (K : ℕ)
    (hK : ∀ g ∈ G, g.length = K) :
    ∀ row ∈ transposeRect d G,
      row.length = G.length ∧ ∀ e ∈ row, ∃ g ∈ G, ∃ j < K, e = g.getD j d := by
  cases G with
  | nil => simp [transposeRect]
  | cons g₀ rest =>
    have h0 : g₀.length = K := hK g₀ (List.mem_cons_self _ _)
    intro row hrow
    simp only [transposeRect, h0, List.mem_map, List.mem_range] at hrow
    obtain ⟨j, hj, rfl⟩ := hrow
    refine ⟨by simp, ?_⟩
    intro e he
    simp only [List.mem_map] at he
    obtain ⟨g, hg, rfl⟩ := he
    exact ⟨g, hg, j, hj, rfl⟩

/-! ## Claim C1 — the axis swap -/

/-- Claim C1.  For a normal-coordinates section whose parsed mode groups `G`
form `M` modes of `K` atoms each, `_parse_displacements` succeeds and its
result at `[0][a][m]` is exactly the entry parsed for atom `a` inside mode
group `m` — a `[x, 0, y, 0, z, 0]` row — i.e. after inserting the length-1
k-point axis the mode and atom axes are swapped exactly once, giving
`[kpoint][atom][mode][component]` order. -/
theorem c1_axis_swap (raw : RawDict) (lines : List String)
    (G : List (List (List ℚ))) (M K a m : ℕ)
    (hraw : pyDictGet raw (some "[FR-NORM-COORD]") = some (some lines))
    (hG : dispGroups lines = .ok G)
    (hM : G.length = M) (hK : ∀ g ∈ G, g.length = K)
    (ha : a < K) (hm : m < M) :
    ∃ D, parseDisplacements raw = .ok D ∧
      ((D.getD 0 []).getD a []).getD m [] = (G.getD m []).getD a [] ∧
      ∃ x y z : ℚ, (G.getD m []).getD a [] = [x, 0, y, 0, z, 0] := by
  have hm' : m < G.length := hM ▸ hm
  have hrect : rect3 G = true := rect3_true G K hK (dispGroups_shape lines G hG)
  refine ⟨[transposeRect [] G], ?_, ?_, ?_⟩
  · simp only [parseDisplacements, hraw, hG, hrect, if_true]
  · simpa using transposeRect_getD [] G K a m hK ha hm'
  · have hGm : G.getD m [] ∈ G := getD_mem_of_lt G m [] hm'
    have hlen : (G.getD m []).length = K := hK _ hGm
    have hmem : (G.getD m []).getD a [] ∈ G.getD m [] :=
      getD_mem_of_lt _ a [] (hlen ▸ ha)
    exact dispGroups_shape lines G hG _ hGm _ hmem

/-- Claim C1, witness: the spec's value-based test — a 2-mode, 3-atom input
where mode 0's atom 1 eigenvector is the unique literal `(1, 2, 3)`; the
output at `[0][1][0]` is `[1, 0, 2, 0, 3, 0]`. -/
theorem c1_axis_swap_witness :
    ∃ D,
      parseDisplacements
          [(some "[FR-NORM-COORD]",
            some ["vibration 1", "7.0 7.0 7.0", "1.0 2.0 3.0", "8.0 8.0 8.0",
                  "vibration 2", "4.0 4.0 4.0", "5.0 5.0 5.0", "6.0 6.0 6.0"])] =
        .ok D ∧
      ((D.getD 0 []).getD 1 []).getD 0 [] =
        (([[[7, 0, 7, 0, 7, 0], [1, 0, 2, 0, 3, 0], [8, 0, 8, 0, 8, 0]],
           [[4, 0, 4, 0, 4, 0], [5, 0, 5, 0, 5, 0],
            [6, 0, 6, 0, 6, 0]]] : List (List (List ℚ))).getD 0 []).getD 1 [] ∧
      ∃ x y z : ℚ,
        (([[[7, 0, 7, 0, 7, 0], [1, 0, 2, 0, 3, 0], [8, 0, 8, 0, 8, 0]],
           [[4, 0, 4, 0, 4, 0], [5, 0, 5, 0, 5, 0],
            [6, 0, 6, 0, 6, 0]]] : List (List (List ℚ))).getD 0 []).getD 1 [] =
          [x, 0, y, 0, z, 0] :=
  c1_axis_swap _ _
    [[[7, 0, 7, 0, 7, 0], [1, 0, 2, 0, 3, 0], [8, 0, 8, 0, 8, 0]],
     [[4, 0, 4, 0, 4, 0], [5, 0, 5, 0, 5, 0], [6, 0, 6, 0, 6, 0]]]
    2 3 1 0 rfl (by with_unfolding_all decide) rfl (by decide) (by decide) (by decide)

/-! ## Claim C5 — displacement shape law -/

/-- Claim C5.  For `M` parsed mode groups of `K` atoms each, the displacement
array has shape `[1][K][M][6]`, and in every entry the components at the odd
indices 1, 3, 5 (the synthesized imaginary parts) are exactly zero. -/
theorem c5_displacement_shape (raw : RawDict) (lines : List String)
    (G : List (List (List ℚ))) (M K : ℕ)
    (hraw : pyDictGet raw (some "[FR-NORM-COORD]") = some (some lines))
    (hG : dispGroups lines = .ok G)
    (hM : G.length = M) (hK : ∀ g ∈ G, g.length = K) :
    ∃ D, parseDisplacements raw = .ok D ∧
      D.length = 1 ∧
      (D.getD 0 []).length = K ∧
      (∀ row ∈ D.getD 0 [], row.length = M) ∧
      (∀ row ∈ D.getD 0 [], ∀ e ∈ row,
        e.length = 6 ∧ e.getD 1 1 = 0 ∧ e.getD 3 1 = 0 ∧ e.getD 5 1 = 0) := by
  have hshape := dispGroups_shape lines G hG
  have hrect : rect3 G = true := rect3_true G K hK hshape
  refine ⟨[transposeRect [] G], ?_, rfl, ?_, ?_, ?_⟩
  · simp only [parseDisplacements, hraw, hG, hrect, if_true]
  · obtain ⟨g₀, rest, rfl⟩ : ∃ g₀ rest, G = g₀ :: rest := by
      cases G with
      | nil => exact absurd rfl (dispGroups_ne_nil lines [] hG)
      | cons g₀ rest => exact ⟨g₀, rest, rfl⟩
    have h0 : g₀.length = K := hK g₀ (List.mem_cons_self _ _)
    simp [transposeRect, h0]
  · intro row hrow
    have h := (transposeRect_rows [] G K hK row (by simpa using hrow)).1
    rw [h, hM]

  · intro row hrow e he
    obtain ⟨g, hg, j, hj, rfl⟩ :=
      (transposeRect_rows [] G K hK row (by simpa using hrow)).2 e he
    have hglen : g.length = K := hK g hg
    have hmem : g.getD j [] ∈ g := getD_mem_of_lt g j [] (hglen ▸ hj)
    obtain ⟨x, y, z, hxyz⟩ := hshape g hg _ hmem
    rw [hxyz]
    refine ⟨rfl, rfl, rfl, rfl⟩

/-- Claim C5, witness at a 1-mode, 2-atom section. -/
theorem c5_displacement_shape_witness :
    ∃ D,
      parseDisplacements
          [(some "[FR-NORM-COORD]",
            some ["vibration 1", "0.5 0.5 0.5", "0.25 0.25 0.25"])] = .ok D ∧
      D.length = 1 ∧
      (D.getD 0 []).length = 2 ∧
      (∀ row ∈ D.getD 0 [], row.length = 1) ∧
      (∀ row ∈ D.getD 0 [], ∀ e ∈ row,
        e.length = 6 ∧ e.getD 1 1 = 0 ∧ e.getD 3 1 = 0 ∧ e.getD 5 1 = 0) :=
  c5_displacement_shape _ _
    [[[1/2, 0, 1/2, 0, 1/2, 0], [1/4, 0, 1/4, 0, 1/4, 0]]] 1 2
    rfl (by with_unfolding_all decide) rfl (by decide)

/-! ## Claim C2 — sort indices come from the index field, not line order -/

/-- Claim C2, counterexample.  The claim says the `i`-th atoms line gets
`sort = i` in file order regardless of its index field.  On the concrete
section `["H 2 1 0.0 0.0 0.0", "O 1 8 1.0 1.0 1.0"]` (index fields out of
order) the first line — the `H` atom — receives `sort = 1` and key
`atom_1`, not `sort = 0`: the code computes `sort = index - 1` from the
printed index field. -/
theorem c2_sort_counterexample :
    parseAtomsData (fun z => (z : ℚ)) 1
        [(some "[Atoms] Angs", some ["H 2 1 0.0 0.0 0.0", "O 1 8 1.0 1.0 1.0"])] =
      .ok [("atom_1", ⟨[0, 0, 0], 1, 1, "H"⟩), ("atom_0", ⟨[1, 1, 1], 8, 0, "O"⟩)] := by
  with_unfolding_all decide

/-- Claim C2, amended.  For an atoms section of well-formed lines with
pairwise distinct keys, every line yields one record whose `sort` is its
**index field minus one** and whose key is `atom_<index - 1>` — values
follow the index field printed on each line, not the file position; the
two coincide only when the index fields are exactly `1..K` in file
order. -/
theorem c2_sort_from_index_field (mass : ℤ → ℚ) (bohrC : ℚ) (raw : RawDict)
    (lines : List String) (ps : List AtomTuple)
    (hAU : pyDictGet raw (some "[Atoms] AU") = none)
    (hAngs : pyDictGet raw (some "[Atoms] Angs") = some (some lines))
    (hps : mapExcept parseAtomLine lines = .ok ps)
    (hnd : (ps.map atomKey).Nodup) :
    parseAtomsData mass bohrC raw =
      .ok (ps.map (fun q => (atomKey q, atomRec mass q))) := by
  simp only [parseAtomsData, hAU, hAngs, hps]
  rw [if_neg (by simp)]
  unfold buildAtomsDict
  rw [commitAll_eq_append]
  · simp
  · simpa [Function.comp] using hnd
  · intro q _
    rfl

/-- Claim C2, witness for the amended theorem: three lines with index fields
`3, 1, 2` produce records keyed `atom_2`, `atom_0`, `atom_1` with sorts
`2, 0, 1` — the index-field order, not `0, 1, 2`. -/
theorem c2_sort_from_index_field_witness :
    parseAtomsData (fun z => (z : ℚ)) 1
        [(some "[Atoms] Angs",
          some ["H 3 1 0.0 0.0 0.0", "O 1 8 1.0 1.0 1.0", "N 2 7 2.0 2.0 2.0"])] =
      .ok ([("H", 3, 1, 0, 0, 0), ("O", 1, 8, 1, 1, 1), ("N", 2, 7, 2, 2, 2)].map
        (fun q => (atomKey q, atomRec (fun z => (z : ℚ)) q))) :=
  c2_sort_from_index_field (fun z => (z : ℚ)) 1 _ _
    [("H", 3, 1, 0, 0, 0), ("O", 1, 8, 1, 1, 1), ("N", 2, 7, 2, 2, 2)]
    rfl rfl (by with_unfolding_all decide) (by decide)

/-! ## Claim C7 — missing sections and the Bohr-key preference -/

/-- Claim C7.  (i) With both atoms keys absent, the Geometry Extractor raises
`KeyError`; (ii) with `"[FREQ]"` absent, the Mode Extractor raises
`KeyError`; (iii) with `"[FREQ]"` present and parsed but
`"[FR-NORM-COORD]"` absent, the Mode Extractor raises `KeyError`; in the
`Except` model an error means no partial output record is produced.
(iv) When the Bohr-unit key `"[Atoms] AU"` is present it is selected in
preference: the result coincides with running the extractor on the AU
entry alone, whatever the Angstrom entry holds. -/
theorem c7_missing_sections :
    (∀ (mass : ℤ → ℚ) (bohrC : ℚ) (raw : RawDict),
      pyDictGet raw (some "[Atoms] AU") = none →
      pyDictGet raw (some "[Atoms] Angs") = none →
      parseAtomsData mass bohrC raw = .error .keyError) ∧
    (∀ raw : RawDict, pyDictGet raw (some "[FREQ]") = none →
      parseKPointsData raw = .error .keyError) ∧
    (∀ (raw : RawDict) (ls : List String) (fs : List ℚ),
      pyDictGet raw (some "[FREQ]") = some (some ls) →
      mapExcept parseFreqLine ls = .ok fs →
      pyDictGet raw (some "[FR-NORM-COORD]") = none →
      parseKPointsData raw = .error .keyError) ∧
    (∀ (mass : ℤ → ℚ) (bohrC : ℚ) (raw : RawDict) (v : Option (List String)),
      pyDictGet raw (some "[Atoms] AU") = some v →
      parseAtomsData mass bohrC raw =
        parseAtomsData mass bohrC [(some "[Atoms] AU", v)]) := by
  refine ⟨?_, ?_, ?_, ?_⟩
  · intro mass bohrC raw hAU hAngs
    simp [parseAtomsData, hAU, hAngs]
  · intro raw hf
    simp [parseKPointsData, hf]
  · intro raw ls fs hf hfs hn
    simp [parseKPointsData, hf, hfs, parseDisplacements, hn]
  · intro mass bohrC raw v hAU
    simp [parseAtomsData, hAU, pyDictGet]

/-- Claim C7, witness: concrete instances of all four conjuncts. -/
theorem c7_missing_sections_witness :
    parseAtomsData (fun z => (z : ℚ)) 1 [] = .error .keyError ∧
    parseKPointsData [] = .error .keyError ∧
    parseKPointsData [(some "[FREQ]", some ["1.0"])] = .error .keyError ∧
    parseAtomsData (fun z => (z : ℚ)) 1
        [(some "[Atoms] AU", some ["H 1 1 1.0 1.0 1.0"]),
         (some "[Atoms] Angs", some ["H 1 1 9.0 9.0 9.0"])] =
      parseAtomsData (fun z => (z : ℚ)) 1
        [(some "[Atoms] AU", some ["H 1 1 1.0 1.0 1.0"])] :=
  ⟨c7_missing_sections.1 _ _ [] rfl rfl,
   c7_missing_sections.2.1 [] rfl,
   c7_missing_sections.2.2.1 _ ["1.0"] [1] rfl (by with_unfolding_all decide) rfl,
   c7_missing_sections.2.2.2 _ _ _ _ rfl⟩

/-! ## Claim C9 — Bohr/Angstrom unit normalization -/

/-- The same atom line with each coordinate scaled by the Bohr constant:
how an Angstrom-unit section encodes the positions a Bohr-unit section
holds. -/
def scaleTuple (bohrC : ℚ) (q : AtomTuple) : AtomTuple :=
  (q.1, q.2.1, q.2.2.1, q.2.2.2.1 * bohrC, q.2.2.2.2.1 * bohrC,
    q.2.2.2.2.2 * bohrC)

theorem buildAtomsDict_scale (mass : ℤ → ℚ) (bohrC : ℚ) (pb : List AtomTuple) :
    (buildAtomsDict mass pb).map (fun p => (p.1, scaleRecord bohrC p.2)) =
      buildAtomsDict mass (pb.map (scaleTuple bohrC)) := by
  unfold buildAtomsDict
  rw [commitAll_map_values (scaleRecord bohrC)]
  simp only [List.map_nil, List.map_map]
  congr 1

/-- Claim C9.  Feeding the Geometry Extractor a Bohr-tagged section and an
Angstrom-tagged section that encode the same positions (the Angstrom lines
parse to the Bohr tuples with every coordinate multiplied by the Bohr
constant) yields **equal** results: Bohr-tagged coordinates are uniformly
scaled by the constant after all records are built, Angstrom-tagged ones
pass through unchanged.  In this exact-rational model the agreement is
exact equality, which subsumes agreement within floating-point
tolerance. -/
theorem c9_unit_normalization (mass : ℤ → ℚ) (bohrC : ℚ)
    (lb la : List String) (pb : List AtomTuple)
    (hb : mapExcept parseAtomLine lb = .ok pb)
    (ha : mapExcept parseAtomLine la = .ok (pb.map (scaleTuple bohrC))) :
    parseAtomsData mass bohrC [(some "[Atoms] AU", some lb)] =
      parseAtomsData mass bohrC [(some "[Atoms] Angs", some la)] := by
  have h1 : parseAtomsData mass bohrC [(some "[Atoms] AU", some lb)] =
      .ok ((buildAtomsDict mass pb).map (fun p => (p.1, scaleRecord bohrC p.2))) := by
    simp [parseAtomsData, pyDictGet, hb]
  have h2 : parseAtomsData mass bohrC [(some "[Atoms] Angs", some la)] =
      .ok (buildAtomsDict mass (pb.map (scaleTuple bohrC))) := by
    simp [parseAtomsData, pyDictGet, ha]
  rw [h1, h2, buildAtomsDict_scale]

/-- Claim C9, witness: positions `(2, 4, 6)` Bohr with constant `1/2` equal
positions `(1, 2, 3)` Angstrom; both sections produce identical
records. -/
theorem c9_unit_normalization_witness :
    parseAtomsData (fun z => (z : ℚ)) (1/2)
        [(some "[Atoms] AU", some ["H 1 1 2.0 4.0 6.0"])] =
      parseAtomsData (fun z => (z : ℚ)) (1/2)
        [(some "[Atoms] Angs", some ["H 1 1 1.0 2.0 3.0"])] :=
  c9_unit_normalization (fun z => (z : ℚ)) (1/2) _ _ [("H", 1, 1, 2, 4, 6)]
    (by with_unfolding_all decide) (by with_unfolding_all decide)

/-! ## Claim C8 — no frequency/mode-count consistency check -/

/-- Claim C8, counterexample.  The claim says a mismatch between the number
of frequencies and the number of mode groups surfaces a consistency error.
On the concrete block set with **two** frequencies but **one** mode group,
`parse_k_points_data` raises nothing and returns a record whose
`frequencies[0]` has length 2 while the mode axis of
`atomic_displacements[0][0]` has length 1. -/
theorem c8_mismatch_counterexample :
    parseKPointsData
        [(some "[FREQ]", some ["1.0", "2.0"]),
         (some "[FR-NORM-COORD]", some ["vibration 1", "0.5 0.5 0.5"])] =
      .ok ⟨[[1, 2]], [[[[1/2, 0, 1/2, 0, 1/2, 0]]]], [1], [[0, 0, 0]],
        [[0, 0, 0], [0, 0, 0], [0, 0, 0]]⟩ := by
  with_unfolding_all decide

/-- Claim C8, amended.  The Mode Extractor performs **no** consistency check:
whenever the frequency section parses and the normal-coordinates section
parses into rectangular mode groups, it returns a `KPointsData` built from
both — with no hypothesis relating the frequency count to the mode-group
count, so a mismatched record is produced silently rather than
surfaced. -/
theorem c8_no_consistency_check (raw : RawDict) (ls : List String)
    (fs : List ℚ) (nlines : List String) (G : List (List (List ℚ))) (K : ℕ)
    (hf : pyDictGet raw (some "[FREQ]") = some (some ls))
    (hfs : mapExcept parseFreqLine ls = .ok fs)
    (hn : pyDictGet raw (some "[FR-NORM-COORD]") = some (some nlines))
    (hG : dispGroups nlines = .ok G)
    (hK : ∀ g ∈ G, g.length = K) :
    parseKPointsData raw =
      .ok ⟨[fs], [transposeRect [] G], [1], [[0, 0, 0]],
        [[0, 0, 0], [0, 0, 0], [0, 0, 0]]⟩ := by
  have hrect : rect3 G = true := rect3_true G K hK (dispGroups_shape nlines G hG)
  simp only [parseKPointsData, hf, hfs, parseDisplacements, hn, hG, hrect, if_true]

/-- Claim C8, witness for the amended theorem: three frequencies, one mode
group — the record is still produced. -/
theorem c8_no_consistency_check_witness :
    parseKPointsData
        [(some "[FREQ]", some ["1.0", "2.0", "3.0"]),
         (some "[FR-NORM-COORD]", some ["vibration 1", "0.25 0.25 0.25"])] =
      .ok ⟨[[1, 2, 3]], [transposeRect [] [[[1/4, 0, 1/4, 0, 1/4, 0]]]], [1],
        [[0, 0, 0]], [[0, 0, 0], [0, 0, 0], [0, 0, 0]]⟩ :=
  c8_no_consistency_check _ ["1.0", "2.0", "3.0"] [1, 2, 3]
    ["vibration 1", "0.25 0.25 0.25"] [[[1/4, 0, 1/4, 0, 1/4, 0]]] 1
    rfl (by with_unfolding_all decide) rfl (by with_unfolding_all decide)
    (by decide)

/-! ## Claim C6 — the header gate -/

/-- Claim C6, counterexample.  The claim says conversion fails whenever the
first line is not exactly `"[Molden Format]"`.  The concrete stream below
begins with `"   [Molden Format]"` — not exactly the header text — yet the
check strips the line first, so the conversion succeeds. -/
theorem c6_header_gate_counterexample :
    ("   [Molden Format]" : String) ≠ "[Molden Format]" ∧
    convert (fun z => (z : ℚ)) 1
        ["   [Molden Format]", "[Atoms] Angs", "H 1 1 0.0 0.0 0.0", "[FREQ]", "1.0",
         "[FR-NORM-COORD]", "vibration 1", "0.5 0.5 0.5"] =
      .ok ⟨⟨[[1]], [[[[1/2, 0, 1/2, 0, 1/2, 0]]]], [1], [[0, 0, 0]],
        [[0, 0, 0], [0, 0, 0], [0, 0, 0]]⟩,
        [("atom_0", ⟨[0, 0, 0], 1, 0, "H"⟩)], "AbinsData", "6.9"⟩ :=
  ⟨by decide, by with_unfolding_all decide⟩

/-- Claim C6, amended.  For every input stream, when the **stripped** first
line differs from `"[Molden Format]"` the conversion fails with
`ValueError` immediately — before the block reader or either extractor
runs; conversely, when the stripped first line equals the header the check
passes and the conversion proceeds to the rest of the pipeline on the
remaining lines. -/
theorem c6_header_gate (mass : ℤ → ℚ) (bohrC : ℚ) (l : String)
    (rest : List String) :
    (pyStrip l ≠ "[Molden Format]" →
      convert mass bohrC (l :: rest) = .error .valueError) ∧
    (pyStrip l = "[Molden Format]" →
      convert mass bohrC (l :: rest) = pipelineAfterHeader mass bohrC rest) := by
  constructor
  · intro h
    simp [convert, checkFirstLine, h]
  · intro h
    simp [convert, checkFirstLine, h]

/-- Claim C6, witness: both directions of the amended gate at concrete
inputs. -/
theorem c6_header_gate_witness :
    convert (fun z => (z : ℚ)) 1 ["garbage"] = .error .valueError ∧
    convert (fun z => (z : ℚ)) 1 ("[Molden Format]" :: ["[FREQ]"]) =
      pipelineAfterHeader (fun z => (z : ℚ)) 1 ["[FREQ]"] :=
  ⟨(c6_header_gate (fun z => (z : ℚ)) 1 "garbage" []).1 (by decide),
   (c6_header_gate (fun z => (z : ℚ)) 1 "[Molden Format]" ["[FREQ]"]).2 (by decide)⟩

end MoldenToAbins
